import Mathlib

/-!
Verification of the combinatorial assignment/partition search engine of
`asteroid/losses/pit_wrapper.py` (class `PITLossWrapper` and its static
methods), via a shallow embedding in Lean 4.

Modelling conventions:
* Rational numbers (`ℚ`) stand for the floating-point scalars of torch
  tensors; all claimed equalities are exact over `ℚ`.
* A rank-3 torch tensor is a `Tensor3`: explicit dimension sizes plus a
  total valuation function (torch tensors carry their shape even when a
  dimension is zero, so shapes are explicit fields, not derived).
* Python exceptions (`raise ValueError`, failing `assert`) are modelled with
  `Except String`; a raised exception is `.error msg`.
* `torch.min(input, dim)` returns the first index attaining the minimum
  (documented torch behaviour); it is modelled by `minList` / `idxOfMin`.
* `scipy.optimize.linear_sum_assignment` is an external dependency; it is
  modelled from its contract (returns column indices of a minimum-total-cost
  assignment) by exhaustive minimisation, see `lsa_assignment`.
* `itertools.permutations` / `itertools.combinations` enumerate in a fixed
  order (lexicographic in input positions); `permutationsPy` and
  `combinationsPy` reproduce that order.
-/

namespace PitWrapper

/-- Model of `torch.min(t, dim)` values on one row: minimum of a list of
rationals (`0` for the empty list, which never occurs in the modelled code). -/
def minList : List ℚ → ℚ
  | [] => 0
  | [x] => x
  | x :: y :: xs => min x (minList (y :: xs))

/-- Model of `torch.min(t, dim)` indices on one row: the index of the first
occurrence of the minimum (documented torch tie-breaking). -/
def idxOfMin (l : List ℚ) : Nat :=
  l.findIdx (fun x => decide (x = minList l))

/-- Holds exactly on `Except.error`: the call raised a Python exception. -/
def isErrorB {α : Type} : Except String α → Bool
  | .error _ => true
  | .ok _ => false

/-- Model of `itertools.combinations(lst, k)`: all `k`-element sublists of
`lst`, in the order itertools yields them (lexicographic in positions). -/
def combinationsPy {α : Type} : List α → Nat → List (List α)
  | _, 0 => [[]]
  | [], _ + 1 => []
  | x :: xs, k + 1 =>
      ((combinationsPy xs k).map (fun c => x :: c)) ++ combinationsPy xs (k + 1)

/-- Model of the inner generator `combs(lst, k, l)` of
`PITLossWrapper.best_part_mix_it`:

    def combs(lst, k, l):
        if l == 0:
            yield []
        else:
            for c in combinations(lst, k):
                rest = [x for x in lst if x not in c]
                for r in combs(rest, k, l-1):
                    yield [list(c), *r]

The generator is materialised in yield order. -/
def combs : List Nat → Nat → Nat → List (List (List Nat))
  | _, _, 0 => [[]]
  | lst, k, l + 1 =>
      (combinationsPy lst k).flatMap (fun c =>
        (combs (lst.filter (fun x => decide (x ∉ c))) k l).map (fun r => c :: r))

/-- Model of the inner function `all_combinations(lst)` of
`PITLossWrapper.best_part_mix_it_generalized`:

    def all_combinations(lst):
        all_combinations = []
        for k in range(len(lst) + 1):
            for c in combinations(lst, k):
                rest = [x for x in lst if x not in c]
                all_combinations.append([list(c), rest])
        return all_combinations
-/
def all_combinations (lst : List Nat) : List (List (List Nat)) :=
  (List.range (lst.length + 1)).flatMap (fun k =>
    (combinationsPy lst k).map (fun c => [c, lst.filter (fun x => decide (x ∉ c))]))

/-- All ways to pick one element out of a list, keeping the remaining
elements in order, enumerated by position (helper for `permutationsPy`). -/
def picks {α : Type} : List α → List (α × List α)
  | [] => []
  | x :: xs => (x, xs) :: (picks xs).map (fun p => (p.1, x :: p.2))

/-- Structural recursion worker for `permutationsPy`; the fuel is the length
of the list. -/
def permsAux {α : Type} : Nat → List α → List (List α)
  | 0, _ => [[]]
  | n + 1, l => (picks l).flatMap (fun p => (permsAux n p.2).map (fun q => p.1 :: q))

/-- Model of `list(itertools.permutations(lst))`: all permutations of `lst`,
in lexicographic order of the chosen positions (itertools order). -/
def permutationsPy {α : Type} (l : List α) : List (List α) :=
  permsAux l.length l

/-- A rank-3 torch tensor `[n0, n1, n2]` of rationals: explicit dimension
sizes and a total valuation (values outside the bounds are irrelevant). -/
structure Tensor3 where
  n0 : Nat
  n1 : Nat
  n2 : Nat
  val : Nat → Nat → Nat → ℚ

/-- A rank-2 torch tensor `[n0, n1]` of rationals (one source slice). -/
structure Tensor2 where
  n0 : Nat
  n1 : Nat
  val : Nat → Nat → ℚ

/-- Model of `t.transpose(-1, -2)` for a rank-3 tensor. -/
def transposeLast (t : Tensor3) : Tensor3 :=
  ⟨t.n0, t.n2, t.n1, fun b i j => t.val b j i⟩

/-- Model of the slice `t[:, i, :]` of a rank-3 tensor. -/
def sliceSrc (t : Tensor3) (i : Nat) : Tensor2 :=
  ⟨t.n0, t.n2, fun b k => t.val b i k⟩

/-- Model of the advanced indexing `t[:, perm]`: pick the dim-1 rows listed
in `p`, in order. -/
def permuteSrc (t : Tensor3) (p : List Nat) : Tensor3 :=
  ⟨t.n0, p.length, t.n2, fun b k ti => t.val b (p.getD k 0) ti⟩

/-- A loss callback returning one scalar per batch row
(`loss_func(est, targets, **kwargs) -> (batch,)`); the `**kwargs` of the
Python callback are part of the closure. -/
def LossFn : Type := Tensor3 → Tensor3 → Nat → ℚ

/-- A pointwise loss callback on single-source slices
(`loss_func(est_src, target_src) -> (batch,)`). -/
def PwFn : Type := Tensor2 → Tensor2 → Nat → ℚ

/-- A pairwise-matrix loss callback
(`loss_func(est, targets) -> (batch, n_src, n_src)`). -/
def MtxFn : Type := Tensor3 → Tensor3 → Tensor3

/-- A permutation-losses reduce callback `perm_reduce`:
`(B, n_perm, n_src) -> (B, n_perm)`; its `**kwargs` (`reduce_kwargs`) are
part of the closure. -/
def ReduceFn : Type := (Nat → Nat → Nat → ℚ) → Nat → Nat → ℚ

/-- Batch mean: model of `torch.mean` on a `(n,)` (or `(n, 1)`) tensor whose
row `b` holds `f b`. -/
def batchMean (f : Nat → ℚ) (n : Nat) : ℚ :=
  (((List.range n).map f).sum) / n

/-- The per-batch-row list of permutation scores built by
`PITLossWrapper.find_best_perm_factorial`: entry `p` is the score of the
`p`-th permutation in itertools order.  Without `perm_reduce`, the score is
the mean of `pwl[b, i, perm[i]]` over `i` (the einsum with the one-hot stack
followed by `loss_set /= n_src`); with `perm_reduce`, it is the reduce
callback applied to the gathered `pwl_set[b, p, i] = pwl[b, i, perm_p[i]]`. -/
def factorial_loss_set (pwl_in : Tensor3) (perm_reduce : Option ReduceFn) (b : Nat) : List ℚ :=
  let n_src := pwl_in.n2
  let pwl := transposeLast pwl_in
  let perms := permutationsPy (List.range n_src)
  match perm_reduce with
  | none =>
      perms.map (fun p =>
        (((List.range n_src).map (fun i => pwl.val b i (p.getD i 0))).sum) / n_src)
  | some red =>
      (List.range perms.length).map
        (red (fun b' q i => pwl.val b' i ((perms.getD q []).getD i 0)) b)

/-- Model of `PITLossWrapper.find_best_perm_factorial`: per batch row, the
minimal permutation score and the first permutation (itertools order)
attaining it (`torch.min` returns the first minimal index). -/
def find_best_perm_factorial (pwl_in : Tensor3) (perm_reduce : Option ReduceFn) :
    (Nat → ℚ) × (Nat → List Nat) :=
  let n_src := pwl_in.n2
  let perms := permutationsPy (List.range n_src)
  (fun b => minList (factorial_loss_set pwl_in perm_reduce b),
   fun b => perms.getD (idxOfMin (factorial_loss_set pwl_in perm_reduce b)) [])

/-- Modelled from the contract of `scipy.optimize.linear_sum_assignment`
(an external dependency, not part of this repository): for a square cost
matrix it returns the column indices of an assignment minimizing the total
cost; which optimum is returned on ties is unspecified, here the first in
itertools permutation order. -/
def lsa_assignment (cost : Nat → Nat → ℚ) (n : Nat) : List Nat :=
  let perms := permutationsPy (List.range n)
  perms.getD
    (idxOfMin (perms.map (fun p => ((List.range n).map (fun i => cost i (p.getD i 0))).sum))) []

/-- Model of `PITLossWrapper.find_best_perm_hungarian`: solve the assignment
problem per batch row on the transposed matrix, then gather the chosen
entries and take their mean (`torch.gather(pwl, 2, idx).mean([-1, -2])`). -/
def find_best_perm_hungarian (pwl_in : Tensor3) : (Nat → ℚ) × (Nat → List Nat) :=
  let pwl := transposeLast pwl_in
  let n := pwl_in.n2
  let batch_indices : Nat → List Nat := fun b => lsa_assignment (fun i j => pwl.val b i j) n
  (fun b => (((List.range n).map (fun i => pwl.val b i ((batch_indices b).getD i 0))).sum) / n,
   batch_indices)

/-- Model of `PITLossWrapper.find_best_perm`: factorial search when a
`perm_reduce` is supplied or `n_src <= 3`, Hungarian search otherwise. -/
def find_best_perm (pwl : Tensor3) (perm_reduce : Option ReduceFn) :
    (Nat → ℚ) × (Nat → List Nat) :=
  if perm_reduce.isSome || decide (pwl.n2 ≤ 3) then
    find_best_perm_factorial pwl perm_reduce
  else
    find_best_perm_hungarian pwl

/-- Model of `PITLossWrapper.reorder_source`:
`torch.stack([torch.index_select(s, 0, b) for s, b in zip(source, batch_indices)])`.
The batch is a list of per-row source lists; `index_select(s, 0, b)` picks
the rows of `s` listed in `b`, in order. -/
def reorder_source (source : List (List (List ℚ))) (batch_indices : List (List Nat)) :
    List (List (List ℚ)) :=
  (source.zip batch_indices).map (fun sb => sb.2.map (fun i => sb.1.getD i []))

/-- Model of `PITLossWrapper.get_pw_losses`: `matrix[b, i, j]` is the
pointwise callback on estimate slice `i` against target slice `j`; the
matrix is allocated as `(batch, n_src, n_src)` from `targets.shape`. -/
def get_pw_losses (loss_pt : PwFn) (est_targets targets : Tensor3) : Tensor3 :=
  ⟨targets.n0, targets.n1, targets.n1,
   fun b i j => loss_pt (sliceSrc est_targets i) (sliceSrc targets j) b⟩

/-- Model of `PITLossWrapper.best_perm_from_perm_avg_loss`: evaluate the
whole-permutation callback on every permuted estimate tensor, take the
per-row minimum and the first permutation attaining it. -/
def best_perm_from_perm_avg_loss (loss_func : LossFn) (est_targets targets : Tensor3) :
    (Nat → ℚ) × (Nat → List Nat) :=
  let n_src := targets.n1
  let perms := permutationsPy (List.range n_src)
  let row : Nat → List ℚ := fun b =>
    perms.map (fun p => loss_func (permuteSrc est_targets p) targets b)
  (fun b => minList (row b), fun b => perms.getD (idxOfMin (row b)) [])

/-- The synthesized mixtures of one candidate partition:
`torch.stack([torch.sum(est_targets[:, indexes, :], axis=1) for indexes in partition], axis=1)`. -/
def sum_mixes (est_targets : Tensor3) (partition : List (List Nat)) : Tensor3 :=
  ⟨est_targets.n0, partition.length, est_targets.n2,
   fun b m t => ((partition.getD m []).map (fun i => est_targets.val b i t)).sum⟩

/-- Model of `PITLossWrapper.best_part_mix_it` (equal-size MixIT partition
search).  The two shape `assert`s, the `ZeroDivisionError` Python would
raise on `n_est % 0`, the divisibility `ValueError` and the in-loop
`assert`s on each generated partition are modelled as `Except.error`; the
in-loop asserts are checked before the losses since their truth does not
depend on the loss callback. -/
def best_part_mix_it (loss_func : LossFn) (est_targets targets : Tensor3) :
    Except String ((Nat → ℚ) × Tensor3) :=
  if est_targets.n0 ≠ targets.n0 then .error "assert est_targets.shape[0] == targets.shape[0]"
  else if est_targets.n2 ≠ targets.n2 then .error "assert est_targets.shape[2] == targets.shape[2]"
  else
    let n_mixtures := targets.n1
    let n_est := est_targets.n1
    if n_mixtures = 0 then .error "ZeroDivisionError: integer modulo by zero"
    else if n_est % n_mixtures ≠ 0 then
      .error "The mixtures are assumed to contain the same number of sources"
    else
      let n_src := n_est / n_mixtures
      let parts := combs (List.range n_est) n_src n_mixtures
      if ¬ (parts.all (fun partition =>
            decide ((partition.getD 0 []).length = n_src) &&
            decide (partition.length = n_mixtures))) then
        .error "assert len(partition[0]) == n_src and len(partition) == n_mixtures"
      else
        let lossRow : Nat → List ℚ := fun b =>
          parts.map (fun partition => loss_func (sum_mixes est_targets partition) targets b)
        let ordered : Tensor3 :=
          ⟨est_targets.n0, n_mixtures, est_targets.n2, fun b m t =>
            (((parts.getD (idxOfMin (lossRow b)) []).getD m []).map
              (fun i => est_targets.val b i t)).sum⟩
        .ok (fun b => minList (lossRow b), ordered)

/-- Model of `PITLossWrapper.best_part_mix_it_generalized` (two-mixture
MixIT partition search over all binary splits); error modelling as in
`best_part_mix_it`. -/
def best_part_mix_it_generalized (loss_func : LossFn) (est_targets targets : Tensor3) :
    Except String ((Nat → ℚ) × Tensor3) :=
  if est_targets.n0 ≠ targets.n0 then .error "assert est_targets.shape[0] == targets.shape[0]"
  else if est_targets.n2 ≠ targets.n2 then .error "assert est_targets.shape[2] == targets.shape[2]"
  else
    let n_mixtures := targets.n1
    let n_est := est_targets.n1
    if n_mixtures ≠ 2 then .error "Works only with two mixtures"
    else
      let parts := all_combinations (List.range n_est)
      if ¬ (parts.all (fun partition => decide (partition.length = n_mixtures))) then
        .error "assert len(partition) == n_mixtures"
      else
        let lossRow : Nat → List ℚ := fun b =>
          parts.map (fun partition => loss_func (sum_mixes est_targets partition) targets b)
        let ordered : Tensor3 :=
          ⟨est_targets.n0, n_mixtures, est_targets.n2, fun b m t =>
            (((parts.getD (idxOfMin (lossRow b)) []).getD m []).map
              (fun i => est_targets.val b i t)).sum⟩
        .ok (fun b => minList (lossRow b), ordered)

/-- The configuration of a constructed `PITLossWrapper`.  The Python class
stores a single dynamically-typed callable `self.loss_func` that is invoked
under a different calling convention depending on `pit_from`; the model
splits that callable into one field per calling convention, and the mode
selects which one `forward` uses — mirroring the call sites exactly. -/
structure PITLossWrapper where
  loss_mtx : MtxFn
  loss_pt : PwFn
  loss_batch : LossFn
  pit_from : String
  perm_reduce : Option ReduceFn

/-- The five supported `pit_from` mode strings. -/
def supported_modes : List String :=
  ["pw_mtx", "pw_pt", "perm_avg", "mix_it", "mix_it_gen"]

/-- Model of `PITLossWrapper.__init__`: store the configuration, then raise
`ValueError` if the mode string is not one of the five supported ones. -/
def PITLossWrapper_init (loss_mtx : MtxFn) (loss_pt : PwFn) (loss_batch : LossFn)
    (pit_from : String) (perm_reduce : Option ReduceFn) : Except String PITLossWrapper :=
  let w : PITLossWrapper := ⟨loss_mtx, loss_pt, loss_batch, pit_from, perm_reduce⟩
  if w.pit_from ∉ supported_modes then
    .error "Unsupported loss function type for now. Expected one of [pw_mtx, pw_pt, perm_avg, mix_it, mix_it_gen]"
  else
    .ok w

/-- The first statement of `PITLossWrapper.forward`:
`n_src = targets.shape[1]; assert n_src < 10, ...`. -/
def source_axis_check (targets : Tensor3) : Except String Unit :=
  if targets.n1 < 10 then .ok ()
  else .error ("Expected source axis along dim 1, found " ++ toString targets.n1)

/-- Materialise a `Tensor3` as a nested list `[batch][src][time]` (the list
representation used by the `reorder_source` model). -/
def T3toList (t : Tensor3) : List (List (List ℚ)) :=
  (List.range t.n0).map (fun b =>
    (List.range t.n1).map (fun s =>
      (List.range t.n2).map (fun ti => t.val b s ti)))

/-- What a call of `PITLossWrapper.forward` returns when it does not raise:
a bare scalar loss, a (scalar loss, reordered/reconstructed tensor) pair, or
Python's `None` (the dead `else: return` branch, unreachable for a wrapper
that passed construction). -/
inductive ForwardResult where
  | scalar (loss : ℚ)
  | pair (loss : ℚ) (reordered : List (List (List ℚ)))
  | retNone
deriving DecidableEq

/-- The tail of `PITLossWrapper.forward` shared by the `pw_mtx` and `pw_pt`
modes (lines after the pairwise matrix has been produced): check the batch
dimension (`pw_losses.ndim == 3` holds by construction of `Tensor3`), run
`find_best_perm`, average over the batch, and reorder only if `return_est`. -/
def forward_from_matrix (w : PITLossWrapper) (est_targets targets : Tensor3)
    (return_est : Bool) (pw_losses : Tensor3) : Except String ForwardResult :=
  if pw_losses.n0 ≠ targets.n0 then .error "PIT loss needs same batch dim as input"
  else
    let r := find_best_perm pw_losses w.perm_reduce
    let mean_loss := batchMean r.1 pw_losses.n0
    if return_est = false then .ok (.scalar mean_loss)
    else .ok (.pair mean_loss
      (reorder_source (T3toList est_targets) ((List.range pw_losses.n0).map r.2)))

/-- Model of `PITLossWrapper.forward`: the source-count precondition check
followed by the five-way mode dispatch.  The `perm_avg` branch returns the
bare mean loss unless `return_est`; the `mix_it` and `mix_it_gen` branches
always return the (mean loss, reconstructed mixtures) pair; the final
`else: return` yields Python's `None`. -/
def forward (w : PITLossWrapper) (est_targets targets : Tensor3) (return_est : Bool) :
    Except String ForwardResult :=
  match source_axis_check targets with
  | .error e => .error e
  | .ok _ =>
    if w.pit_from = "pw_mtx" then
      forward_from_matrix w est_targets targets return_est (w.loss_mtx est_targets targets)
    else if w.pit_from = "pw_pt" then
      forward_from_matrix w est_targets targets return_est
        (get_pw_losses w.loss_pt est_targets targets)
    else if w.pit_from = "perm_avg" then
      let r := best_perm_from_perm_avg_loss w.loss_batch est_targets targets
      let mean_loss := batchMean r.1 targets.n0
      if return_est = false then .ok (.scalar mean_loss)
      else .ok (.pair mean_loss
        (reorder_source (T3toList est_targets) ((List.range targets.n0).map r.2)))
    else if w.pit_from = "mix_it" then
      match best_part_mix_it w.loss_batch est_targets targets with
      | .error e => .error e
      | .ok r => .ok (.pair (batchMean r.1 est_targets.n0) (T3toList r.2))
    else if w.pit_from = "mix_it_gen" then
      match best_part_mix_it_generalized w.loss_batch est_targets targets with
      | .error e => .error e
      | .ok r => .ok (.pair (batchMean r.1 est_targets.n0) (T3toList r.2))
    else
      .ok .retNone

/-- Holds exactly on the pair-returning variant of `ForwardResult`. -/
def isPairR : ForwardResult → Bool
  | .pair _ _ => true
  | _ => false

/-- Holds exactly on the scalar-returning variant of `ForwardResult`. -/
def isScalarR : ForwardResult → Bool
  | .scalar _ => true
  | _ => false

/- Concrete example inputs used to instantiate the claim theorems. -/

/-- A concrete `(1, 4, 4)` pairwise loss matrix. -/
def mtxEx4 : Tensor3 := ⟨1, 4, 4, fun _ i j => ((i * 4 + j : Nat) : ℚ)⟩

/-- A concrete `(1, 2, 2)` pairwise loss matrix with distinct entries. -/
def mtxEx2 : Tensor3 :=
  ⟨1, 2, 2, fun _ i j =>
    if i = 0 then (if j = 0 then 3 else 1) else (if j = 0 then 2 else 4)⟩

/-- A concrete `(1, 2, 2)` all-zero pairwise loss matrix (every permutation
ties). -/
def mtxEx0 : Tensor3 := ⟨1, 2, 2, fun _ _ _ => 0⟩

/-- A concrete all-zero loss callback. -/
def lossEx : LossFn := fun _ _ _ => 0

/-- A concrete `(1, 3, 1)` estimate tensor. -/
def estEx3 : Tensor3 := ⟨1, 3, 1, fun _ _ _ => 0⟩

/-- A concrete `(1, 2, 1)` target tensor (two mixtures). -/
def tgtEx2 : Tensor3 := ⟨1, 2, 1, fun _ _ _ => 0⟩

/-- A concrete `(1, 3, 1)` target tensor (three mixtures). -/
def tgtEx3 : Tensor3 := ⟨1, 3, 1, fun _ _ _ => 0⟩

/-- A concrete one-row batch of two one-sample sources. -/
def srcEx : List (List (List ℚ)) := [[[1], [2]]]

/-- A concrete one-row batch of swap permutations. -/
def bidxEx : List (List Nat) := [[1, 0]]

/-- A concrete wrapper in `pw_mtx` mode whose callback returns an all-zero
`(1, 1, 1)` matrix. -/
def wrapEx : PITLossWrapper :=
  ⟨fun _ _ => ⟨1, 1, 1, fun _ _ _ => 0⟩, fun _ _ _ => 0, fun _ _ _ => 0, "pw_mtx", none⟩

/-- A concrete `(1, 1, 1)` tensor. -/
def tenEx1 : Tensor3 := ⟨1, 1, 1, fun _ _ _ => 0⟩

/-- A concrete `(1, 10, 1)` target tensor (ten sources: at the ceiling). -/
def tgtEx10 : Tensor3 := ⟨1, 10, 1, fun _ _ _ => 0⟩

/-- A concrete `(1, 9, 1)` target tensor (nine sources: below the ceiling). -/
def tgtEx9 : Tensor3 := ⟨1, 9, 1, fun _ _ _ => 0⟩

/- ------------------------------------------------------------------ -/
/- Helper lemmas                                                      -/
/- ------------------------------------------------------------------ -/

theorem minList_cons_cons (x y : ℚ) (xs : List ℚ) :
    minList (x :: y :: xs) = min x (minList (y :: xs)) := rfl

theorem minList_mem : ∀ {l : List ℚ}, l ≠ [] → minList l ∈ l
  | [], h => absurd rfl h
  | [x], _ => by simp [minList]
  | x :: y :: xs, _ => by
      rw [minList_cons_cons]
      rcases min_choice x (minList (y :: xs)) with h | h
      · rw [h]; exact List.mem_cons_self _ _
      · rw [h]; exact List.mem_cons_of_mem _ (minList_mem (by simp))

theorem idxOfMin_lt_length {l : List ℚ} (h : l ≠ []) : idxOfMin l < l.length := by
  rw [idxOfMin, List.findIdx_lt_length]
  exact ⟨minList l, minList_mem h, by simp⟩

theorem getD_idxOfMin {l : List ℚ} (h : l ≠ []) (d : ℚ) :
    l.getD (idxOfMin l) d = minList l := by
  have hlt : idxOfMin l < l.length := idxOfMin_lt_length h
  rw [List.getD_eq_getElem l d hlt]
  have := @List.findIdx_getElem _ (fun x => decide (x = minList l)) l
    (by rw [idxOfMin] at hlt; exact hlt)
  simpa [idxOfMin] using this

theorem getD_lt_idxOfMin_ne {l : List ℚ} {j : Nat} (hj : j < idxOfMin l) (d : ℚ) :
    l.getD j d ≠ minList l := by
  have hjl : j < l.length :=
    lt_of_lt_of_le hj (by rw [idxOfMin]; exact List.findIdx_le_length _)
  have hne := @List.not_of_lt_findIdx _ (fun x => decide (x = minList l)) l j
    (by rw [idxOfMin] at hj; exact hj)
  rw [List.getD_eq_getElem l d hjl]
  simpa using hne

theorem getD_map_of_lt {α β : Type} (f : α → β) (l : List α) {i : Nat}
    (h : i < l.length) (d : β) (d' : α) : (l.map f).getD i d = f (l.getD i d') := by
  rw [List.getD_eq_getElem _ d (by simpa using h), List.getElem_map,
    List.getD_eq_getElem l d' h]

theorem minList_map_div (l : List ℚ) (c : ℚ) (hc : 0 ≤ c) :
    minList (l.map (fun x => x / c)) = minList l / c := by
  match l with
  | [] => simp [minList]
  | [x] => simp [minList]
  | x :: y :: xs =>
      have ih := minList_map_div (y :: xs) c hc
      simp only [List.map_cons] at ih ⊢
      rw [minList_cons_cons, minList_cons_cons, ih, min_div_div_right hc]

theorem list_map_sum_const {α : Type} (L : List α) (f : α → Nat) (B : Nat)
    (h : ∀ c ∈ L, f c = B) : (L.map f).sum = L.length * B := by
  induction L with
  | nil => simp
  | cons a L ih =>
      simp only [List.map_cons, List.sum_cons, List.length_cons]
      rw [h a (List.mem_cons_self a L), ih (fun c hc => h c (List.mem_cons_of_mem a hc))]
      ring

theorem list_map_sum_const_mul {α : Type} (L : List α) (f : α → Nat) (A B : Nat)
    (h : ∀ c ∈ L, f c * A = B) : (L.map f).sum * A = L.length * B := by
  induction L with
  | nil => simp
  | cons a L ih =>
      simp only [List.map_cons, List.sum_cons, List.length_cons]
      rw [Nat.add_mul, h a (List.mem_cons_self a L),
        ih (fun c hc => h c (List.mem_cons_of_mem a hc))]
      ring

theorem combinationsPy_length {α : Type} :
    ∀ (l : List α) (k : Nat), (combinationsPy l k).length = Nat.choose l.length k := by
  intro l
  induction l with
  | nil =>
      intro k
      cases k with
      | zero => simp [combinationsPy]
      | succ k => simp [combinationsPy]
  | cons x xs ih =>
      intro k
      cases k with
      | zero => simp [combinationsPy]
      | succ k =>
          simp only [combinationsPy, List.length_append, List.length_map, ih,
            List.length_cons]
          rw [Nat.choose_succ_succ]

theorem mem_combinationsPy {α : Type} :
    ∀ {l : List α} {k : Nat} {c : List α}, c ∈ combinationsPy l k →
      c.Sublist l ∧ c.length = k := by
  intro l
  induction l with
  | nil =>
      intro k c hc
      cases k with
      | zero => simp [combinationsPy] at hc; subst hc; simp
      | succ k => simp [combinationsPy] at hc
  | cons x xs ih =>
      intro k c hc
      cases k with
      | zero =>
          simp [combinationsPy] at hc; subst hc
          exact ⟨List.nil_sublist _, rfl⟩
      | succ k =>
          simp only [combinationsPy, List.mem_append, List.mem_map] at hc
          rcases hc with ⟨c', hc', rfl⟩ | hc
          · obtain ⟨hs, hl⟩ := ih hc'
            exact ⟨List.Sublist.cons₂ x hs, by simp [hl]⟩
          · obtain ⟨hs, hl⟩ := ih hc
            exact ⟨hs.cons x, hl⟩

theorem sublist_filter_mem_eq {α : Type} [DecidableEq α] :
    ∀ {c l : List α}, c.Sublist l → l.Nodup →
      l.filter (fun x => decide (x ∈ c)) = c := by
  intro c l h
  induction h with
  | slnil => intro _; rfl
  | cons a h ih =>
      rename_i c' l'
      intro hnd
      rw [List.nodup_cons] at hnd
      have ha : a ∉ c' := fun hac => hnd.1 (h.subset hac)
      simp only [List.filter_cons, decide_eq_true_eq]
      rw [if_neg ha]
      exact ih hnd.2
  | cons₂ a h ih =>
      rename_i c' l'
      intro hnd
      rw [List.nodup_cons] at hnd
      simp only [List.filter_cons, decide_eq_true_eq]
      rw [if_pos (List.mem_cons_self a c')]
      congr 1
      rw [List.filter_congr (fun x hx => ?_)]
      · exact ih hnd.2
      · have hxa : x ≠ a := fun he => hnd.1 (he ▸ hx)
        simp [List.mem_cons, hxa]

theorem filter_not_mem_length {α : Type} [DecidableEq α] {c l : List α}
    (h : c.Sublist l) (hnd : l.Nodup) :
    (l.filter (fun x => decide (x ∉ c))).length = l.length - c.length := by
  have hsplit := List.length_eq_length_filter_add (l := l) (fun x => decide (x ∈ c))
  have hmem : (l.filter (fun x => decide (x ∈ c))).length = c.length := by
    rw [sublist_filter_mem_eq h hnd]
  have hnot : (l.filter (fun x => ! decide (x ∈ c))) =
      (l.filter (fun x => decide (x ∉ c))) := by
    apply List.filter_congr
    intro x _
    simp [decide_not]
  rw [hnot, hmem] at hsplit
  omega

theorem combs_shape : ∀ (l k : Nat) (lst : List Nat) (r : List (List Nat)),
    r ∈ combs lst k l → r.length = l ∧ ∀ g ∈ r, g.length = k := by
  intro l
  induction l with
  | zero =>
      intro k lst r hr
      simp only [combs, List.mem_singleton] at hr
      subst hr
      simp
  | succ l ih =>
      intro k lst r hr
      simp only [combs, List.mem_flatMap, List.mem_map] at hr
      obtain ⟨c, hc, r', hr', rfl⟩ := hr
      obtain ⟨hlen, hall⟩ := ih k _ r' hr'
      refine ⟨by simp [hlen], ?_⟩
      intro g hg
      rcases List.mem_cons.mp hg with rfl | hg
      · exact (mem_combinationsPy hc).2
      · exact hall g hg

theorem combs_length_mul : ∀ (l k : Nat) (lst : List Nat), lst.Nodup →
    lst.length = k * l →
    (combs lst k l).length * Nat.factorial k ^ l = Nat.factorial lst.length := by
  intro l
  induction l with
  | zero =>
      intro k lst _ hlen
      rw [Nat.mul_zero] at hlen
      simp [combs, hlen]
  | succ l ih =>
      intro k lst hnd hlen
      have hunf : combs lst k (l + 1) = (combinationsPy lst k).flatMap (fun c =>
          (combs (lst.filter (fun x => decide (x ∉ c))) k l).map (fun r => c :: r)) := rfl
      rw [hunf, List.length_flatMap]
      have hmapeq : List.map (List.length ∘ (fun c =>
            (combs (lst.filter (fun x => decide (x ∉ c))) k l).map (fun r => c :: r)))
            (combinationsPy lst k)
          = (combinationsPy lst k).map
            (fun c => (combs (lst.filter (fun x => decide (x ∉ c))) k l).length) := by
        simp [Function.comp]
      rw [hmapeq]
      have key : ∀ c ∈ combinationsPy lst k,
          (combs (lst.filter (fun x => decide (x ∉ c))) k l).length *
            Nat.factorial k ^ l = Nat.factorial (k * l) := by
        intro c hc
        obtain ⟨hsub, hck⟩ := mem_combinationsPy hc
        have hnd' : (lst.filter (fun x => decide (x ∉ c))).Nodup :=
          List.Nodup.filter _ hnd
        have hlen' : (lst.filter (fun x => decide (x ∉ c))).length = k * l := by
          rw [filter_not_mem_length hsub hnd, hck, hlen]
          have : k * (l + 1) = k * l + k := by ring
          omega
        rw [ih k _ hnd' hlen', hlen']
      have hsum := list_map_sum_const_mul (combinationsPy lst k) _
        (Nat.factorial k ^ l) (Nat.factorial (k * l)) key
      rw [pow_succ, ← Nat.mul_assoc, hsum, combinationsPy_length, hlen]
      have hk : k ≤ k * (l + 1) := by
        have : k * (l + 1) = k * l + k := by ring
        omega
      have hch := Nat.choose_mul_factorial_mul_factorial hk
      have hdiff : k * (l + 1) - k = k * l := by
        have : k * (l + 1) = k * l + k := by ring
        omega
      rw [hdiff] at hch
      calc (k * (l + 1)).choose k * Nat.factorial (k * l) * Nat.factorial k
        = (k * (l + 1)).choose k * Nat.factorial k * Nat.factorial (k * l) := by ring
      _ = Nat.factorial (k * (l + 1)) := hch

theorem picks_length {α : Type} : ∀ (l : List α), (picks l).length = l.length := by
  intro l
  induction l with
  | nil => rfl
  | cons x xs ih => simp [picks, ih]

theorem picks_snd_length {α : Type} :
    ∀ (l : List α) (p : α × List α), p ∈ picks l → p.2.length + 1 = l.length := by
  intro l
  induction l with
  | nil => intro p hp; simp [picks] at hp
  | cons x xs ih =>
      intro p hp
      simp only [picks, List.mem_cons, List.mem_map] at hp
      rcases hp with rfl | ⟨q, hq, rfl⟩
      · simp
      · have := ih q hq
        simp only [List.length_cons]
        omega

theorem permsAux_length {α : Type} :
    ∀ (n : Nat) (l : List α), l.length = n → (permsAux n l).length = Nat.factorial n := by
  intro n
  induction n with
  | zero => intro l h; simp [permsAux, Nat.factorial]
  | succ n ih =>
      intro l h
      have hunf : permsAux (n + 1) l = (picks l).flatMap (fun p =>
          (permsAux n p.2).map (fun q => p.1 :: q)) := rfl
      rw [hunf, List.length_flatMap]
      have hmapeq : List.map (List.length ∘ (fun p : α × List α =>
            (permsAux n p.2).map (fun q => p.1 :: q))) (picks l)
          = (picks l).map (fun p => (permsAux n p.2).length) := by
        simp [Function.comp]
      rw [hmapeq]
      have key : ∀ p ∈ picks l, (permsAux n p.2).length = Nat.factorial n := by
        intro p hp
        refine ih p.2 ?_
        have := picks_snd_length l p hp
        omega
      rw [list_map_sum_const _ _ _ key, picks_length, h, Nat.factorial_succ]

theorem permutationsPy_length {α : Type} (l : List α) :
    (permutationsPy l).length = Nat.factorial l.length :=
  permsAux_length _ _ rfl

theorem permutationsPy_ne_nil {α : Type} (l : List α) : permutationsPy l ≠ [] := by
  intro h
  have hl := permutationsPy_length l
  rw [h] at hl
  exact absurd hl.symm (Nat.factorial_pos l.length).ne'

theorem factorial_loss_set_ne_nil (pwl : Tensor3) (pr : Option ReduceFn) (b : Nat) :
    factorial_loss_set pwl pr b ≠ [] := by
  cases pr with
  | none =>
      simp only [factorial_loss_set, ne_eq, List.map_eq_nil_iff]
      exact permutationsPy_ne_nil _
  | some red =>
      simp only [factorial_loss_set, ne_eq, List.map_eq_nil_iff, List.range_eq_nil,
        permutationsPy_length]
      exact (Nat.factorial_pos _).ne'

theorem map_getD_range {α : Type} : ∀ (l : List α) (d : α),
    (List.range l.length).map (fun i => l.getD i d) = l := by
  intro l
  induction l with
  | nil => intro d; rfl
  | cons x xs ih =>
      intro d
      rw [List.length_cons, List.range_succ_eq_map, List.map_cons, List.map_map]
      have hcomp : ((fun i => (x :: xs).getD i d) ∘ Nat.succ) = fun i => xs.getD i d := by
        funext i
        simp
      rw [hcomp, ih]
      simp

theorem reorder_source_ident : ∀ (source : List (List (List ℚ))),
    reorder_source source (source.map (fun s => List.range s.length)) = source := by
  intro source
  induction source with
  | nil => rfl
  | cons s ss ih =>
      simp only [List.map_cons, reorder_source, List.zip_cons_cons, List.map_cons]
      rw [map_getD_range]
      exact congrArg (List.cons s) ih

/- ------------------------------------------------------------------ -/
/- Claim theorems                                                     -/
/- ------------------------------------------------------------------ -/

/-- C1, counterexample.  The claim states that the equal-size partition
engine enumerates exactly `n_est! / ((n_src!)^n_mixtures * n_mixtures!)`
candidate partitions — `3` for `n_est = 4, n_mixtures = 2, n_src = 2`.  The
generator `combs` of `best_part_mix_it` actually yields `6` candidates for
that configuration (each unordered partition once per ordering of its
groups), so the claimed count is false on the code. -/
theorem claim_c1_counterexample :
    ¬ ((combs (List.range 4) 2 2).length
        = Nat.factorial 4 / (Nat.factorial 2 ^ 2 * Nat.factorial 2)) := by decide

/-- C1, amended.  The equal-size partition engine (`combs`, as invoked by
`best_part_mix_it` on `range n_est` with group size `n_src` and
`n_mixtures` groups, so `n_est = n_src * n_mixtures`) enumerates exactly
`n_est! / (n_src!)^n_mixtures` ordered partitions — `n_mixtures!` times the
number of unordered partitions claimed — stated division-free as
`count * (n_src!)^n_mixtures = n_est!`.  For `n_est = 4, n_mixtures = 2`
the count is `6 = 2! * 3`, not `3`. -/
theorem claim_c1_amended :
    (∀ k l : Nat,
      (combs (List.range (k * l)) k l).length * Nat.factorial k ^ l
        = Nat.factorial (k * l))
    ∧ (combs (List.range 4) 2 2).length = 6
    ∧ (combs (List.range 4) 2 2).length
        = Nat.factorial 2 * (Nat.factorial 4 / (Nat.factorial 2 ^ 2 * Nat.factorial 2)) := by
  refine ⟨?_, by decide, by decide⟩
  intro k l
  have h := combs_length_mul l k (List.range (k * l)) (List.nodup_range _)
    (List.length_range _)
  rwa [List.length_range] at h

/-- C4.  The generalized two-mixture partition engine (`all_combinations`,
as invoked by `best_part_mix_it_generalized` on `range n_est`) enumerates
exactly `2 ^ n_est` ordered binary splits (first group, remaining indices),
the empty group included; in particular `8` splits for `n_est = 3`. -/
theorem claim_c4 :
    (∀ n : Nat, (all_combinations (List.range n)).length = 2 ^ n)
    ∧ (all_combinations (List.range 3)).length = 8 := by
  refine ⟨?_, by decide⟩
  intro n
  rw [all_combinations, List.length_flatMap, List.length_range]
  have hmapeq : List.map (List.length ∘ (fun k => (combinationsPy (List.range n) k).map
        (fun c => [c, (List.range n).filter (fun x => decide (x ∉ c))])))
        (List.range (n + 1))
      = (List.range (n + 1)).map (fun k => Nat.choose n k) := by
    simp [Function.comp, combinationsPy_length]
  rw [hmapeq]
  have hbridge : ((List.range (n + 1)).map (fun k => Nat.choose n k)).sum
      = (Finset.range (n + 1)).sum (fun k => Nat.choose n k) := rfl
  rw [hbridge, Nat.sum_range_choose]

/-- C5.  Constructing `PITLossWrapper` raises `ValueError` at construction
time exactly when the mode string is not one of the five supported modes;
construction succeeds for each of the five.  The check runs inside
`__init__`, before any `forward` call can exist. -/
theorem claim_c5 (lm : MtxFn) (lp : PwFn) (lb : LossFn) (pr : Option ReduceFn)
    (mode : String) :
    isErrorB (PITLossWrapper_init lm lp lb mode pr) = true
      ↔ mode ∉ (["pw_mtx", "pw_pt", "perm_avg", "mix_it", "mix_it_gen"] : List String) := by
  simp only [PITLossWrapper_init, supported_modes]
  split
  · rename_i h
    simpa [isErrorB] using h
  · rename_i h
    simpa [isErrorB] using h

/-- C2.  `find_best_perm` dispatches to the exhaustive factorial search
exactly when a `perm_reduce` callback is supplied or `n_src ≤ 3`, and to
the Hungarian (linear assignment) search in every other case.  The dispatch
is a pure function of the configuration — there is no fallback path: the
result is definitionally the chosen algorithm's result. -/
theorem claim_c2 (pwl : Tensor3) (pr : Option ReduceFn) :
    ((pr.isSome = true ∨ pwl.n2 ≤ 3) →
      find_best_perm pwl pr = find_best_perm_factorial pwl pr)
    ∧ (pr = none → 3 < pwl.n2 →
      find_best_perm pwl pr = find_best_perm_hungarian pwl) := by
  constructor
  · intro h
    rw [find_best_perm, if_pos]
    rcases h with h | h
    · simp [h]
    · simp [h]
  · intro hpr hn
    subst hpr
    rw [find_best_perm, if_neg]
    simp [Nat.not_le.mpr hn]

/-- C2 witness: a `(1, 4, 4)` matrix without `perm_reduce` goes to the
Hungarian branch. -/
theorem claim_c2_witness :
    find_best_perm mtxEx4 none = find_best_perm_hungarian mtxEx4 :=
  (claim_c2 mtxEx4 none).2 rfl (by decide)

/-- C8.  In the factorial search, the permutation selected for a batch row
is `perms[idxOfMin scores]` where `perms` is the itertools-order enumeration
of the permutations of `range(n_src)` and `idxOfMin` is the index of the
first score attaining the row minimum: the entry at the selected index is
the minimum, and every strictly earlier entry is not — first-occurrence tie
breaking in enumeration order. -/
theorem claim_c8 (pwl : Tensor3) (pr : Option ReduceFn) (b : Nat) :
    (find_best_perm_factorial pwl pr).2 b
        = (permutationsPy (List.range pwl.n2)).getD
            (idxOfMin (factorial_loss_set pwl pr b)) []
    ∧ (factorial_loss_set pwl pr b).getD (idxOfMin (factorial_loss_set pwl pr b)) 0
        = minList (factorial_loss_set pwl pr b)
    ∧ ∀ j, j < idxOfMin (factorial_loss_set pwl pr b) →
        (factorial_loss_set pwl pr b).getD j 0
          ≠ minList (factorial_loss_set pwl pr b) := by
  refine ⟨rfl, getD_idxOfMin (factorial_loss_set_ne_nil pwl pr b) 0, ?_⟩
  intro j hj
  exact getD_lt_idxOfMin_ne hj 0

/-- C8 witness: on an all-zero `(1, 2, 2)` matrix every permutation ties;
the identity permutation `[0, 1]`, first in enumeration order, is selected. -/
theorem claim_c8_witness :
    (find_best_perm_factorial mtxEx0 none).2 0 = [0, 1]
    ∧ idxOfMin (factorial_loss_set mtxEx0 none 0) = 0 := by
  have hperms : permutationsPy (List.range 2) = [[0, 1], [1, 0]] := by decide
  have hfls : factorial_loss_set mtxEx0 none 0 = [0, 0] := by
    simp [factorial_loss_set, mtxEx0, transposeLast, hperms]
  have hidx : idxOfMin (factorial_loss_set mtxEx0 none 0) = 0 := by
    rw [hfls]
    simp [idxOfMin, minList, List.findIdx_cons]
  refine ⟨((claim_c8 mtxEx0 none 0).1).trans ?_, hidx⟩
  rw [hidx]
  decide

/-- C6.  Under well-formed input shapes, `best_part_mix_it` raises exactly
when `n_mixtures` does not divide `n_est`, and
`best_part_mix_it_generalized` raises exactly when `n_mixtures ≠ 2`.  The
checks run before any partition is evaluated: the error branch is taken for
every loss callback `f` (it is quantified on the left of the iff), and an
`Except.error` result carries no partial result. -/
theorem claim_c6 :
    (∀ (f : LossFn) (est tgt : Tensor3), est.n0 = tgt.n0 → est.n2 = tgt.n2 →
      0 < tgt.n1 →
      (isErrorB (best_part_mix_it f est tgt) = true ↔ ¬ (tgt.n1 ∣ est.n1)))
    ∧ (∀ (f : LossFn) (est tgt : Tensor3), est.n0 = tgt.n0 → est.n2 = tgt.n2 →
      (isErrorB (best_part_mix_it_generalized f est tgt) = true ↔ tgt.n1 ≠ 2)) := by
  constructor
  · intro f est tgt h0 h2 hpos
    rw [best_part_mix_it, if_neg (by simp [h0]), if_neg (by simp [h2]),
      if_neg (by omega)]
    have hiff : est.n1 % tgt.n1 = 0 ↔ tgt.n1 ∣ est.n1 :=
      Nat.dvd_iff_mod_eq_zero.symm
    by_cases hmod : est.n1 % tgt.n1 = 0
    · rw [if_neg (not_not_intro hmod)]
      have hall : (combs (List.range est.n1) (est.n1 / tgt.n1) tgt.n1).all
          (fun partition =>
            decide ((partition.getD 0 []).length = est.n1 / tgt.n1) &&
            decide (partition.length = tgt.n1)) = true := by
        rw [List.all_eq_true]
        intro partition hmem
        obtain ⟨hlen, hsz⟩ := combs_shape tgt.n1 (est.n1 / tgt.n1) _ partition hmem
        have hhead : (partition.getD 0 []).length = est.n1 / tgt.n1 := by
          cases partition with
          | nil => simp at hlen; omega
          | cons g rest => exact hsz g (List.mem_cons_self _ _)
        rw [hhead, hlen]
        simp
      rw [if_neg (not_not_intro hall)]
      simp [isErrorB, hiff.mp hmod]
    · rw [if_pos hmod]
      simp only [isErrorB, true_iff]
      exact fun hd => hmod (hiff.mpr hd)
  · intro f est tgt h0 h2
    rw [best_part_mix_it_generalized, if_neg (by simp [h0]), if_neg (by simp [h2])]
    by_cases hn : tgt.n1 = 2
    · rw [if_neg (not_not_intro hn)]
      have hall : (all_combinations (List.range est.n1)).all
          (fun partition => decide (partition.length = tgt.n1)) = true := by
        rw [List.all_eq_true]
        intro p hp
        simp only [all_combinations, List.mem_flatMap, List.mem_map] at hp
        obtain ⟨k, hk, c, hc, rfl⟩ := hp
        simp [hn]
      rw [if_neg (not_not_intro hall)]
      simp [isErrorB, hn]
    · rw [if_pos hn]
      simp [isErrorB, hn]

/-- C6 witness: with `(1, 3, 1)` estimates, the equal-size search on two
mixtures (`2` does not divide `3`) and the generalized search on three
mixtures (`≠ 2`) both raise. -/
theorem claim_c6_witness :
    isErrorB (best_part_mix_it lossEx estEx3 tgtEx2) = true
    ∧ isErrorB (best_part_mix_it_generalized lossEx estEx3 tgtEx3) = true :=
  ⟨(claim_c6.1 lossEx estEx3 tgtEx2 rfl rfl (by decide)).mpr (by decide),
   (claim_c6.2 lossEx estEx3 tgtEx3 rfl rfl).mpr (by decide)⟩

/-- C9.  `forward` fails with the source-axis assertion — for every wrapper,
estimate tensor and `return_est` flag, i.e. before any search computation —
whenever `targets.shape[1] ≥ 10`; for fewer than 10 sources the
precondition check passes. -/
theorem claim_c9 (w : PITLossWrapper) (est tgt : Tensor3) (re : Bool) :
    (10 ≤ tgt.n1 → forward w est tgt re
        = Except.error ("Expected source axis along dim 1, found " ++ toString tgt.n1))
    ∧ (tgt.n1 < 10 → source_axis_check tgt = Except.ok ()) := by
  constructor
  · intro h
    have hchk : source_axis_check tgt
        = Except.error ("Expected source axis along dim 1, found " ++ toString tgt.n1) := by
      rw [source_axis_check, if_neg (by omega)]
    rw [forward, hchk]
  · intro h
    rw [source_axis_check, if_pos h]

/-- C9 witness: ten sources trip the check, nine do not. -/
theorem claim_c9_witness :
    forward wrapEx tenEx1 tgtEx10 false
        = Except.error ("Expected source axis along dim 1, found " ++ toString tgtEx10.n1)
    ∧ source_axis_check tgtEx9 = Except.ok () :=
  ⟨(claim_c9 wrapEx tenEx1 tgtEx10 false).1 (by decide),
   (claim_c9 wrapEx tenEx1 tgtEx9 false).2 (by decide)⟩

/-- C10.  When `forward` returns a value: in the `mix_it` and `mix_it_gen`
modes it is always a (mean loss, reconstructed tensor) pair, whatever
`return_est` is; in the `pw_mtx`, `pw_pt` and `perm_avg` modes with
`return_est = false` it is the bare scalar mean loss. -/
theorem claim_c10 (w : PITLossWrapper) (est tgt : Tensor3) (re : Bool)
    (r : ForwardResult) (h : forward w est tgt re = Except.ok r) :
    ((w.pit_from = "mix_it" ∨ w.pit_from = "mix_it_gen") → isPairR r = true)
    ∧ ((w.pit_from = "pw_mtx" ∨ w.pit_from = "pw_pt" ∨ w.pit_from = "perm_avg") →
        re = false → isScalarR r = true) := by
  cases hchk : source_axis_check tgt with
  | error e => rw [forward, hchk] at h; exact absurd h (by simp)
  | ok u =>
      rw [forward, hchk] at h
      constructor
      · rintro (hm | hm) <;> rw [hm] at h <;>
          simp only [String.reduceEq, reduceIte] at h
        · cases hbp : best_part_mix_it w.loss_batch est tgt with
          | error e => rw [hbp] at h; exact absurd h (by simp)
          | ok p =>
              rw [hbp] at h
              obtain rfl : ForwardResult.pair (batchMean p.1 est.n0) (T3toList p.2) = r :=
                by simpa using h
              rfl
        · cases hbp : best_part_mix_it_generalized w.loss_batch est tgt with
          | error e => rw [hbp] at h; exact absurd h (by simp)
          | ok p =>
              rw [hbp] at h
              obtain rfl : ForwardResult.pair (batchMean p.1 est.n0) (T3toList p.2) = r :=
                by simpa using h
              rfl
      · rintro (hm | hm | hm) hre <;> rw [hm] at h <;> subst hre <;>
          simp only [String.reduceEq, reduceIte] at h
        · rw [forward_from_matrix] at h
          split at h
          · exact absurd h (by simp)
          · simp only [reduceIte] at h
            obtain rfl :
                ForwardResult.scalar (batchMean (find_best_perm (w.loss_mtx est tgt)
                  w.perm_reduce).1 (w.loss_mtx est tgt).n0) = r := by
              simpa using h
            rfl
        · rw [forward_from_matrix] at h
          split at h
          · exact absurd h (by simp)
          · simp only [reduceIte] at h
            obtain rfl :
                ForwardResult.scalar (batchMean (find_best_perm
                  (get_pw_losses w.loss_pt est tgt) w.perm_reduce).1
                  (get_pw_losses w.loss_pt est tgt).n0) = r := by
              simpa using h
            rfl
        · obtain rfl :
              ForwardResult.scalar (batchMean
                (best_perm_from_perm_avg_loss w.loss_batch est tgt).1 tgt.n0) = r := by
            simpa using h
          rfl

/-- C10 witness: a `pw_mtx` wrapper on an all-zero `(1, 1, 1)` problem with
`return_est = false` returns the bare scalar `0`. -/
theorem claim_c10_witness :
    forward wrapEx tenEx1 tenEx1 false = Except.ok (ForwardResult.scalar 0)
    ∧ isScalarR (ForwardResult.scalar 0) = true := by
  have hperm1 : permutationsPy (List.range 1) = [[0]] := by decide
  have h : forward wrapEx tenEx1 tenEx1 false = Except.ok (ForwardResult.scalar 0) := by
    rw [forward]
    have hchk : source_axis_check tenEx1 = Except.ok () := by
      rw [source_axis_check, if_pos (by decide)]
    rw [hchk]
    simp only [wrapEx, String.reduceEq, reduceIte]
    rw [forward_from_matrix]
    simp only [tenEx1, reduceIte]
    rw [if_neg (by decide)]
    have hfbp : find_best_perm (⟨1, 1, 1, fun _ _ _ => 0⟩ : Tensor3) none
        = find_best_perm_factorial (⟨1, 1, 1, fun _ _ _ => 0⟩ : Tensor3) none := by
      rw [find_best_perm, if_pos (by decide)]
    simp only [hfbp]
    have hfls : factorial_loss_set (⟨1, 1, 1, fun _ _ _ => 0⟩ : Tensor3) none 0 = [0] := by
      simp [factorial_loss_set, transposeLast, hperm1]
    have hr1 : List.range 1 = [0] := rfl
    simp [find_best_perm_factorial, batchMean, hfls, minList, hr1, transposeLast]
  exact ⟨h, (claim_c10 wrapEx tenEx1 tenEx1 false (ForwardResult.scalar 0) h).2
    (Or.inl rfl) rfl⟩

/-- C7.  `reorder_source` is a pure per-row gather: row `b` of the output
at source position `k` is row `b` of the input at source position
`batch_indices[b][k]`; and reordering with the identity permutation on
every row returns the input unchanged. -/
theorem claim_c7 (source : List (List (List ℚ))) (bidx : List (List Nat)) :
    (∀ b k, b < source.length → b < bidx.length → k < (bidx.getD b []).length →
      ((reorder_source source bidx).getD b []).getD k []
        = (source.getD b []).getD ((bidx.getD b []).getD k 0) [])
    ∧ (bidx = source.map (fun s => List.range s.length) →
        reorder_source source bidx = source) := by
  constructor
  · intro b k hb hb' hk
    have hzip : b < (source.zip bidx).length := by
      rw [List.length_zip]
      omega
    rw [reorder_source,
      getD_map_of_lt (fun sb => sb.2.map (fun i => sb.1.getD i [])) _ hzip [] ([], [])]
    have hgz : (source.zip bidx).getD b ([], []) = (source.getD b [], bidx.getD b []) := by
      rw [List.getD_eq_getElem _ _ hzip, List.getElem_zip,
        List.getD_eq_getElem _ _ hb, List.getD_eq_getElem _ _ hb']
    rw [hgz, getD_map_of_lt _ _ hk [] 0]
  · intro hid
    subst hid
    exact reorder_source_ident source

/-- C7 witness: one batch row `[[1], [2]]` with permutation `[1, 0]` swaps
the two sources, and the identity permutation returns the input. -/
theorem claim_c7_witness :
    ((reorder_source srcEx bidxEx).getD 0 []).getD 0 []
        = (srcEx.getD 0 []).getD ((bidxEx.getD 0 []).getD 0 0) []
    ∧ reorder_source srcEx bidxEx = [[[2], [1]]]
    ∧ reorder_source srcEx (srcEx.map (fun s => List.range s.length)) = srcEx :=
  ⟨(claim_c7 srcEx bidxEx).1 0 0 (by decide) (by decide) (by decide),
   by decide,
   (claim_c7 srcEx (srcEx.map (fun s => List.range s.length))).2 rfl⟩

/-- C3.  For every rank-3 square pairwise loss matrix (`n_src ≤ 4` as the
claim states, not needed by the proof) with no `perm_reduce` callback, the
factorial search and the Hungarian search return the same per-batch-row
minimal mean loss — exactly over `ℚ` (the claim's floating tolerance). -/
theorem claim_c3 (pwl : Tensor3) (_hsq : pwl.n1 = pwl.n2) (_hn : pwl.n2 ≤ 4) (b : Nat) :
    (find_best_perm_factorial pwl none).1 b = (find_best_perm_hungarian pwl).1 b := by
  have hne : permutationsPy (List.range pwl.n2) ≠ [] := permutationsPy_ne_nil _
  have hmapne : (permutationsPy (List.range pwl.n2)).map (fun p =>
      ((List.range pwl.n2).map
        (fun i => (transposeLast pwl).val b i (p.getD i 0))).sum) ≠ [] := by
    simpa [List.map_eq_nil_iff] using hne
  have hidx : idxOfMin ((permutationsPy (List.range pwl.n2)).map (fun p =>
      ((List.range pwl.n2).map
        (fun i => (transposeLast pwl).val b i (p.getD i 0))).sum))
      < (permutationsPy (List.range pwl.n2)).length := by
    have := idxOfMin_lt_length hmapne
    simpa using this
  have hS : ((List.range pwl.n2).map (fun i => (transposeLast pwl).val b i
      (((permutationsPy (List.range pwl.n2)).getD
        (idxOfMin ((permutationsPy (List.range pwl.n2)).map (fun p =>
          ((List.range pwl.n2).map
            (fun i => (transposeLast pwl).val b i (p.getD i 0))).sum))) []).getD i 0))).sum
      = minList ((permutationsPy (List.range pwl.n2)).map (fun p =>
          ((List.range pwl.n2).map
            (fun i => (transposeLast pwl).val b i (p.getD i 0))).sum)) := by
    rw [← getD_map_of_lt (fun p => ((List.range pwl.n2).map
        (fun i => (transposeLast pwl).val b i (p.getD i 0))).sum) _ hidx 0 []]
    exact getD_idxOfMin hmapne 0
  have hfact : (find_best_perm_factorial pwl none).1 b
      = minList (((permutationsPy (List.range pwl.n2)).map (fun p =>
          ((List.range pwl.n2).map
            (fun i => (transposeLast pwl).val b i (p.getD i 0))).sum)).map
          (fun x => x / (pwl.n2 : ℚ))) := by
    show minList (factorial_loss_set pwl none b) = _
    congr 1
    rw [List.map_map]
    rfl
  rw [hfact, minList_map_div _ _ (by positivity)]
  show _ = ((List.range pwl.n2).map (fun i => (transposeLast pwl).val b i
      ((lsa_assignment (fun i j => (transposeLast pwl).val b i j) pwl.n2).getD i 0))).sum
      / (pwl.n2 : ℚ)
  rw [lsa_assignment]
  rw [hS]

/-- C3 witness: on the `(1, 2, 2)` matrix `[[3, 1], [2, 4]]` both searches
return `3/2` (permutation `[1, 0]`, mean of `2` and `1`). -/
theorem claim_c3_witness :
    (find_best_perm_factorial mtxEx2 none).1 0 = (find_best_perm_hungarian mtxEx2).1 0
    ∧ (find_best_perm_factorial mtxEx2 none).1 0 = 3 / 2 := by
  refine ⟨claim_c3 mtxEx2 rfl (by decide) 0, ?_⟩
  have hperms : permutationsPy (List.range 2) = [[0, 1], [1, 0]] := by decide
  have hr2 : List.range 2 = [0, 1] := rfl
  have hfls : factorial_loss_set mtxEx2 none 0 = [7 / 2, 3 / 2] := by
    simp only [factorial_loss_set, mtxEx2]
    rw [hperms]
    simp [transposeLast, hr2]
    norm_num
  show minList (factorial_loss_set mtxEx2 none 0) = 3 / 2
  rw [hfls, minList_cons_cons]
  show min (7 / 2 : ℚ) (3 / 2) = 3 / 2
  rw [min_eq_right (by norm_num)]

end PitWrapper
